import Mathlib

/-!
Shallow embedding of the img2video pixel-correspondence engine
(`main.go`, `reorder.go`, `output.go`, and the unnamed variant file).

Modelling conventions:
* Go `float64` scores are modelled as exact rationals `ℚ`; the decimal
  literals `0.299`, `0.587`, `0.114`, `0.25`, `0.75` are taken exactly.
* Go `int` coordinates are `ℤ`; 8-bit colour channels are `ℕ` values.
* A decoded image always has bounds with `Min = (0,0)`, so an image is a
  width, a height and a colour lookup function (`image.At`), matching the
  interface contract of the spec (bounds descriptor = width × height).
* `sort.Sort` establishes exactly: the output is a permutation of the
  input that is pairwise ordered by `¬ Less j i`.  It is modelled by
  `List.insertionSort` over the reflexive relation `fun a b => Less b a =
  false`; for slices of length ≤ 2 this coincides step by step with Go's
  `sort.Sort` (which runs insertion sort on short slices, swapping the two
  elements iff `Less(data[1], data[0])`).
* Fallible code (the out-of-range slice index in `calculatePlan` when the
  target slice is shorter than the source slice) returns `Option`.
-/

/-- An 8-bit RGBA colour, as produced by `color.RGBA{uint8(r>>8), ...}`. -/
structure RGBA where
  R : ℕ
  G : ℕ
  B : ℕ
  A : ℕ
deriving DecidableEq, Repr

/-- The zero value of `color.RGBA` (transparent black), the initial content
of every pixel of `image.NewRGBA`. -/
def zeroRGBA : RGBA := ⟨0, 0, 0, 0⟩

/-- Rec. 601 luma `0.299·R + 0.587·G + 0.114·B` computed on the 8-bit
channels, the `GrayscaleValue` assigned in `imageToPixels` (and the
summand of `CalculateGrayscaleSum`).  Go computes it in `float64`; it is
modelled as the exact rational. -/
def grayscaleValue (c : RGBA) : ℚ :=
  (c.R : ℚ) * (0.299 : ℚ) + (c.G : ℚ) * (0.587 : ℚ) + (c.B : ℚ) * (0.114 : ℚ)

/-- The `Pixel` struct of `reorder.go` / `main.go`: luma score, original
coordinates and original colour. -/
structure Pixel where
  GrayscaleValue : ℚ
  OriginalX : ℤ
  OriginalY : ℤ
  Color : RGBA
deriving DecidableEq, Repr

/-- The `PixelFeatured` struct of `reorder.go`: a `Pixel` together with the
local-contrast `IntervalDepth`. -/
structure PixelFeatured extends Pixel where
  IntervalDepth : ℚ
deriving DecidableEq, Repr

/-- `image.Rectangle` restricted to decoded images: `Min = (0,0)`, so only
the width `W` and height `H` remain (the spec's bounds descriptor). -/
structure Rectangle where
  W : ℕ
  H : ℕ
deriving DecidableEq, Repr

/-- An input image: random-access 8-bit colour lookup on a `w × h` grid
(the `image.At` interface after the 16-bit→8-bit reduction performed by
`imageToPixels`). -/
structure Image (w h : ℕ) where
  pix : ℕ → ℕ → RGBA

/-- The coordinates visited by the extraction loops of `imageToPixels`,
in source order: `y` outer from `0` to `h-1`, `x` inner from `0` to `w-1`. -/
def coordsList (w h : ℕ) : List (ℕ × ℕ) :=
  (List.range h).flatMap fun y => (List.range w).map fun x => (x, y)

/-- The same coordinates as integer pairs (the coordinate values stored in
`Pixel.OriginalX` / `Pixel.OriginalY`). -/
def coordsZ (w h : ℕ) : List (ℤ × ℤ) :=
  (coordsList w h).map fun c => ((c.1 : ℤ), (c.2 : ℤ))

/-- `imageToPixels` of `reorder.go` (`main.go`'s copy is identical): one
`Pixel` per coordinate in row-major order, with the Rec. 601 luma score. -/
def imageToPixels {w h : ℕ} (img : Image w h) : List Pixel :=
  (coordsList w h).map fun c =>
    { GrayscaleValue := grayscaleValue (img.pix c.1 c.2)
      OriginalX := (c.1 : ℤ)
      OriginalY := (c.2 : ℤ)
      Color := img.pix c.1 c.2 }

/-- `Pixels.Less` of `reorder.go` lines 22–31 (identical in the unnamed
variant file): luma first, then the green channel, then the red channel. -/
def Pixels.Less (a b : Pixel) : Bool :=
  if a.GrayscaleValue ≠ b.GrayscaleValue then a.GrayscaleValue < b.GrayscaleValue
  else if a.Color.G ≠ b.Color.G then a.Color.G < b.Color.G
  else a.Color.R < b.Color.R

/-- `PixelsFeatured.Less` of `reorder.go` lines 46–51: luma first, then the
interval depth. -/
def PixelsFeatured.Less (a b : PixelFeatured) : Bool :=
  if a.GrayscaleValue ≠ b.GrayscaleValue then a.GrayscaleValue < b.GrayscaleValue
  else a.IntervalDepth < b.IntervalDepth

/-- `Pixels.Less` of `main.go` line 33 (the standalone variant): luma
only, with no further tiebreak. -/
def MainPixels.Less (a b : Pixel) : Bool :=
  a.GrayscaleValue < b.GrayscaleValue

/-- The lexicographic key `(score, green, red)` underlying `Pixels.Less`. -/
def pixelKey (a : Pixel) : ℚ ×ₗ (ℕ ×ₗ ℕ) :=
  toLex (a.GrayscaleValue, toLex (a.Color.G, a.Color.R))

/-- The lexicographic key `(score, intervalDepth)` underlying
`PixelsFeatured.Less`. -/
def pixelFeaturedKey (a : PixelFeatured) : ℚ ×ₗ ℚ :=
  toLex (a.GrayscaleValue, a.IntervalDepth)

theorem pixelsLess_iff (a b : Pixel) :
    Pixels.Less a b = true ↔ pixelKey a < pixelKey b := by
  unfold Pixels.Less pixelKey
  rcases lt_trichotomy a.GrayscaleValue b.GrayscaleValue with h | h | h
  · simp [h.ne, h, Prod.Lex.lt_iff]
  · rcases lt_trichotomy a.Color.G b.Color.G with h2 | h2 | h2
    · simp [h, h2.ne, h2, Prod.Lex.lt_iff]
    · simp [h, h2, Prod.Lex.lt_iff, decide_eq_true_eq]
    · simp [h, h2.ne', Prod.Lex.lt_iff, h2.not_lt, (by omega : ¬ a.Color.G = b.Color.G)]
  · simp [h.ne', h.not_lt, Prod.Lex.lt_iff, (by exact h.ne' : ¬ a.GrayscaleValue = b.GrayscaleValue)]

theorem pixelsFeaturedLess_iff (a b : PixelFeatured) :
    PixelsFeatured.Less a b = true ↔ pixelFeaturedKey a < pixelFeaturedKey b := by
  unfold PixelsFeatured.Less pixelFeaturedKey
  rcases lt_trichotomy a.GrayscaleValue b.GrayscaleValue with h | h | h
  · simp [h.ne, h, Prod.Lex.lt_iff]
  · simp [h, Prod.Lex.lt_iff, decide_eq_true_eq]
  · simp [h.ne', h.not_lt, Prod.Lex.lt_iff]

/-- The postcondition relation of `sort.Sort(Pixels(...))`: element `a` may
stand (weakly) before `b` iff `!Less(b, a)`. -/
def Pixels.le (a b : Pixel) : Prop := Pixels.Less b a = false

/-- The postcondition relation of `sort.Sort(PixelsFeatured(...))`. -/
def PixelsFeatured.le (a b : PixelFeatured) : Prop := PixelsFeatured.Less b a = false

/-- The postcondition relation of `sort.Sort` with `main.go`'s comparator. -/
def MainPixels.le (a b : Pixel) : Prop := MainPixels.Less b a = false

theorem pixelsLe_iff (a b : Pixel) : Pixels.le a b ↔ pixelKey a ≤ pixelKey b := by
  rw [Pixels.le, ← not_lt, ← pixelsLess_iff]
  simp

theorem pixelsFeaturedLe_iff (a b : PixelFeatured) :
    PixelsFeatured.le a b ↔ pixelFeaturedKey a ≤ pixelFeaturedKey b := by
  rw [PixelsFeatured.le, ← not_lt, ← pixelsFeaturedLess_iff]
  simp

theorem mainPixelsLe_iff (a b : Pixel) :
    MainPixels.le a b ↔ a.GrayscaleValue ≤ b.GrayscaleValue := by
  rw [MainPixels.le, MainPixels.Less, ← not_lt]
  simp

instance : DecidableRel Pixels.le :=
  fun a b => inferInstanceAs (Decidable (Pixels.Less b a = false))

instance : DecidableRel PixelsFeatured.le :=
  fun a b => inferInstanceAs (Decidable (PixelsFeatured.Less b a = false))

instance : DecidableRel MainPixels.le :=
  fun a b => inferInstanceAs (Decidable (MainPixels.Less b a = false))

instance : IsTotal Pixel Pixels.le :=
  ⟨fun a b => by rw [pixelsLe_iff, pixelsLe_iff]; exact le_total _ _⟩

instance : IsTrans Pixel Pixels.le :=
  ⟨fun a b c hab hbc => by
    rw [pixelsLe_iff] at *
    exact le_trans hab hbc⟩

instance : IsTotal PixelFeatured PixelsFeatured.le :=
  ⟨fun a b => by rw [pixelsFeaturedLe_iff, pixelsFeaturedLe_iff]; exact le_total _ _⟩

instance : IsTrans PixelFeatured PixelsFeatured.le :=
  ⟨fun a b c hab hbc => by
    rw [pixelsFeaturedLe_iff] at *
    exact le_trans hab hbc⟩

instance : IsTotal Pixel MainPixels.le :=
  ⟨fun a b => by rw [mainPixelsLe_iff, mainPixelsLe_iff]; exact le_total _ _⟩

instance : IsTrans Pixel MainPixels.le :=
  ⟨fun a b c hab hbc => by
    rw [mainPixelsLe_iff] at *
    exact le_trans hab hbc⟩

/-- `sort.Sort(Pixels(l))` with the `reorder.go` comparator. -/
def sortPixels (l : List Pixel) : List Pixel :=
  List.insertionSort Pixels.le l

/-- `sort.Sort(PixelsFeatured(l))`. -/
def sortPixelsFeatured (l : List PixelFeatured) : List PixelFeatured :=
  List.insertionSort PixelsFeatured.le l

/-- `sort.Sort(Pixels(l))` with the `main.go` (luma-only) comparator. -/
def sortPixelsMain (l : List Pixel) : List Pixel :=
  List.insertionSort MainPixels.le l

theorem sortPixels_perm (l : List Pixel) : List.Perm (sortPixels l) l :=
  List.perm_insertionSort _ l

theorem sortPixelsFeatured_perm (l : List PixelFeatured) : List.Perm (sortPixelsFeatured l) l :=
  List.perm_insertionSort _ l

theorem sortPixelsMain_perm (l : List Pixel) : List.Perm (sortPixelsMain l) l :=
  List.perm_insertionSort _ l

theorem sortPixels_sorted (l : List Pixel) : List.Sorted Pixels.le (sortPixels l) :=
  List.sorted_insertionSort _ l

theorem sortPixelsFeatured_sorted (l : List PixelFeatured) :
    List.Sorted PixelsFeatured.le (sortPixelsFeatured l) :=
  List.sorted_insertionSort _ l

theorem sortPixelsMain_sorted (l : List Pixel) :
    List.Sorted MainPixels.le (sortPixelsMain l) :=
  List.sorted_insertionSort _ l

/-- The `AnimationPixel` struct: start coordinate, target coordinate and
the colour carried from the source pixel. -/
structure AnimationPixel where
  StartX : ℤ
  StartY : ℤ
  TargetX : ℤ
  TargetY : ℤ
  Color : RGBA
deriving DecidableEq, Repr

/-- The `AnimationPlan` struct: the per-pixel motions, the total frame
count and the bounds of every rendered frame. -/
structure AnimationPlan where
  Pixels : List AnimationPixel
  Frames : ℤ
  Bounds : Rectangle
deriving DecidableEq, Repr

/-- `abs` of `main.go` (shared by all variants). -/
def goAbs (x : ℤ) : ℤ := if x < 0 then -x else x

/-- `min` of `output.go` / `main.go`. -/
def goMin (a b : ℤ) : ℤ := if a < b then a else b

/-- The Chebyshev step count `max(abs(dx), abs(dy))` computed for each
pixel inside `calculatePlan`. -/
def chebSteps (ap : AnimationPixel) : ℤ :=
  max (goAbs (ap.TargetX - ap.StartX)) (goAbs (ap.TargetY - ap.StartY))

/-- The running maximum `maxMoveSteps` of `calculatePlan` (initial value
`0`, updated whenever a pixel needs more steps). -/
def maxMoveSteps (l : List AnimationPixel) : ℤ :=
  l.foldl (fun m ap => max m (chebSteps ap)) 0

/-- The loop body of `calculatePlan`: pair `sourcePixels[i]` with
`targetPixels[i]`.  Go indexes `targetPixels[i]` for every
`i < len(sourcePixels)` without a length check, so a target slice shorter
than the source slice is an out-of-range panic, modelled as `none`; a
longer target slice is silently truncated. -/
def planPixels : List Pixel → List PixelFeatured → Option (List AnimationPixel)
  | [], _ => some []
  | _ :: _, [] => none
  | s :: ss, t :: ts =>
    (planPixels ss ts).map fun l =>
      { StartX := s.OriginalX
        StartY := s.OriginalY
        TargetX := t.OriginalX
        TargetY := t.OriginalY
        Color := s.Color } :: l

/-- `calculatePlan` of `reorder.go` lines 91–115: pair the two ranked
sequences positionally and set `Frames = maxMoveSteps + 1`. -/
def calculatePlan (sourcePixels : List Pixel) (targetPixels : List PixelFeatured)
    (bounds : Rectangle) : Option AnimationPlan :=
  (planPixels sourcePixels targetPixels).map fun aps =>
    { Pixels := aps
      Frames := maxMoveSteps aps + 1
      Bounds := bounds }

theorem planPixels_isSome :
    ∀ (ps : List Pixel) (ts : List PixelFeatured),
      (planPixels ps ts).isSome = true ↔ ps.length ≤ ts.length
  | [], ts => by simp [planPixels]
  | p :: ps, [] => by simp [planPixels]
  | p :: ps, t :: ts => by
    simp [planPixels, planPixels_isSome ps ts]

theorem calculatePlan_isSome (ps : List Pixel) (ts : List PixelFeatured) (b : Rectangle) :
    (calculatePlan ps ts b).isSome = true ↔ ps.length ≤ ts.length := by
  unfold calculatePlan
  rw [← planPixels_isSome ps ts]
  cases planPixels ps ts <;> simp

theorem imageToPixels_length {w h : ℕ} (img : Image w h) :
    (imageToPixels img).length = (coordsList w h).length :=
  List.length_map _ _

/-- `CreateAnimationPlan` of `reorder.go` lines 118–130: default complex
sort on both sequences, target records wrapped into `PixelFeatured` with a
zero `IntervalDepth`. -/
def CreateAnimationPlan {w h : ℕ} (sourceImg targetImg : Image w h) : AnimationPlan :=
  (calculatePlan (sortPixels (imageToPixels sourceImg))
      ((sortPixels (imageToPixels targetImg)).map fun p => ⟨p, 0⟩) ⟨w, h⟩).get
    (by
      rw [calculatePlan_isSome]
      simp [(sortPixels_perm _).length_eq, imageToPixels_length])

/-- The `color.GrayModel` conversion applied by `draw.Draw` into the
`image.Gray` buffer of `CreateAnimationPlanFeatured`: 8-bit channels are
widened to 16 bits (`v * 0x101`), combined with the integer Rec. 601
weights, rounded and shifted back down. -/
def grayGo (c : RGBA) : ℕ :=
  (19595 * (257 * c.R) + 38470 * (257 * c.G) + 7471 * (257 * c.B) + 2 ^ 15) / 2 ^ 24

/-- The `grayGrid[y][x]` lookup table of `CreateAnimationPlanFeatured`,
as a function (consulted only at in-bounds coordinates, which is all the
bounds-checked loops of `calculateAverageGray` ever read). -/
def grayGrid {w h : ℕ} (img : Image w h) : ℤ → ℤ → ℚ :=
  fun y x => (grayGo (img.pix x.toNat y.toNat) : ℚ)

/-- The coordinates scanned by the two nested loops of
`calculateAverageGray`: `y` from `cy-radius` to `cy+radius` outer, `x`
from `cx-radius` to `cx+radius` inner. -/
def windowCoords (cx cy : ℤ) (radius : ℕ) : List (ℤ × ℤ) :=
  (List.range (2 * radius + 1)).flatMap fun (j : ℕ) =>
    (List.range (2 * radius + 1)).map fun (i : ℕ) =>
      (cx - (radius : ℤ) + (i : ℤ), cy - (radius : ℤ) + (j : ℤ))

/-- `calculateAverageGray` of `reorder.go` lines 192–208: sum the grid
values of the in-bounds window coordinates and divide by their count
(`0` when the count is zero). -/
def calculateAverageGray (cx cy : ℤ) (radius : ℕ) (grid : ℤ → ℤ → ℚ)
    (bounds : Rectangle) : ℚ :=
  let pts := (windowCoords cx cy radius).filter fun p =>
    0 ≤ p.1 ∧ p.1 < (bounds.W : ℤ) ∧ 0 ≤ p.2 ∧ p.2 < (bounds.H : ℤ)
  if pts.length = 0 then 0
  else (pts.map fun p => grid p.2 p.1).sum / (pts.length : ℚ)

/-- `calculateIntervalDepth` of `reorder.go` lines 170–174: radius 1 gives
the 3×3 window, radius 2 the 5×5 window. -/
def calculateIntervalDepth (x y : ℤ) (grid : ℤ → ℤ → ℚ) (bounds : Rectangle) : ℚ :=
  let avg3x3 := calculateAverageGray x y 1 grid bounds
  let avg5x5 := calculateAverageGray x y 2 grid bounds
  avg5x5 * (0.25 : ℚ) + avg3x3 * (0.75 : ℚ)

/-- The featured target sequence of `CreateAnimationPlanFeatured`: every
raw target pixel is given its interval depth and the result is sorted
with the featured comparator. -/
def targetFeatured {w h : ℕ} (targetImg : Image w h) : List PixelFeatured :=
  sortPixelsFeatured ((imageToPixels targetImg).map fun p =>
    ⟨p, calculateIntervalDepth p.OriginalX p.OriginalY (grayGrid targetImg) ⟨w, h⟩⟩)

/-- `CreateAnimationPlanFeatured` of `reorder.go` lines 133–167: default
complex sort on the source sequence, featured sort on the target
sequence. -/
def CreateAnimationPlanFeatured {w h : ℕ} (sourceImg targetImg : Image w h) :
    AnimationPlan :=
  (calculatePlan (sortPixels (imageToPixels sourceImg)) (targetFeatured targetImg)
      ⟨w, h⟩).get
    (by
      rw [calculatePlan_isSome]
      simp [targetFeatured, (sortPixels_perm _).length_eq,
        (sortPixelsFeatured_perm _).length_eq, imageToPixels_length])

/-- `CalculateGrayscaleSum` of `reorder.go` lines 177–189: the running sum
of the per-pixel luma over the extraction loops. -/
def CalculateGrayscaleSum {w h : ℕ} (img : Image w h) : ℚ :=
  (coordsList w h).foldl (fun s c => s + grayscaleValue (img.pix c.1 c.2)) 0

/-- `calculatePixelPosition` of `output.go` lines 95–118: per-axis
displacement `min(frameNum, abs(d))` in the sign direction of `d`. -/
def calculatePixelPosition (ap : AnimationPixel) (frameNum : ℤ) : ℤ × ℤ :=
  let dx := ap.TargetX - ap.StartX
  let dy := ap.TargetY - ap.StartY
  let movedX := goMin frameNum (goAbs dx)
  let movedY := goMin frameNum (goAbs dy)
  let currentX := if dx > 0 then ap.StartX + movedX
    else if dx < 0 then ap.StartX - movedX else ap.StartX
  let currentY := if dy > 0 then ap.StartY + movedY
    else if dy < 0 then ap.StartY - movedY else ap.StartY
  (currentX, currentY)

/-- An in-memory RGBA raster (`image.RGBA` contents): a total colour map
over integer coordinates, with everything outside the painted area left at
the `image.NewRGBA` zero value. -/
def Raster : Type := ℤ → ℤ → RGBA

/-- A fresh `image.NewRGBA` buffer: every pixel transparent black. -/
def newRGBA : Raster := fun _ _ => zeroRGBA

/-- `(*image.RGBA).Set`: writes the colour at `(x, y)` when the point is
inside the bounds and is a no-op otherwise. -/
def setPix (b : Rectangle) (r : Raster) (x y : ℤ) (c : RGBA) : Raster :=
  if 0 ≤ x ∧ x < (b.W : ℤ) ∧ 0 ≤ y ∧ y < (b.H : ℤ) then
    fun x' y' => if x' = x ∧ y' = y then c else r x' y'
  else r

/-- Paint every plan pixel at the position given by `pos`, in plan order
(later writes win), starting from the raster `r0`. -/
def paintAll (b : Rectangle) (pos : AnimationPixel → ℤ × ℤ)
    (l : List AnimationPixel) (r0 : Raster) : Raster :=
  l.foldl (fun r ap => setPix b r (pos ap).1 (pos ap).2 ap.Color) r0

/-- The per-frame raster built by the loops of `SaveGIF` / `SaveFrames`
(before palette quantisation): every pixel painted at its
`calculatePixelPosition` for the given frame. -/
def renderFrame (plan : AnimationPlan) (frameNum : ℤ) : Raster :=
  paintAll plan.Bounds (fun ap => calculatePixelPosition ap frameNum) plan.Pixels newRGBA

/-- The raster built by `SaveImage` of `output.go` lines 68–92 (before
file encoding): every pixel painted directly at its target coordinate. -/
def saveImageRaster (plan : AnimationPlan) : Raster :=
  paintAll plan.Bounds (fun ap => (ap.TargetX, ap.TargetY)) plan.Pixels newRGBA

/-- Wrap a raster of known dimensions back into an `Image` so that
`CalculateGrayscaleSum` can consume it (the in-memory final frame). -/
def rasterToImage (w h : ℕ) (r : Raster) : Image w h :=
  ⟨fun x y => r x y⟩

/-- The raster holding exactly an input image: its colours inside the
bounds, the `NewRGBA` zero value outside. -/
def rasterOfImage {w h : ℕ} (img : Image w h) : Raster :=
  fun x y =>
    if 0 ≤ x ∧ x < (w : ℤ) ∧ 0 ≤ y ∧ y < (h : ℤ) then img.pix x.toNat y.toNat
    else zeroRGBA

/-- `reorderImages` of `main.go` lines 118–154: the image-level pipeline
that checks the pixel-sequence lengths and fails with the
dimension-mismatch error before sorting (with the luma-only comparator)
and painting source colours at target coordinates. -/
def reorderImages {w1 h1 w2 h2 : ℕ} (sourceImg : Image w1 h1) (targetImg : Image w2 h2) :
    Except String Raster :=
  let sourcePixels := imageToPixels sourceImg
  let targetPixels := imageToPixels targetImg
  if sourcePixels.length ≠ targetPixels.length then
    .error "source and target images must have the same number of pixels (dimensions)"
  else
    let ss := sortPixelsMain sourcePixels
    let ts := sortPixelsMain targetPixels
    .ok ((ss.zip ts).foldl
      (fun r p => setPix ⟨w2, h2⟩ r p.2.OriginalX p.2.OriginalY p.1.Color) newRGBA)

theorem mem_coordsList {w h : ℕ} {c : ℕ × ℕ} :
    c ∈ coordsList w h ↔ c.1 < w ∧ c.2 < h := by
  obtain ⟨a, b⟩ := c
  simp only [coordsList, List.mem_flatMap, List.mem_map, List.mem_range, Prod.mk.injEq]
  constructor
  · rintro ⟨y, hy, x, hx, h1, h2⟩
    exact ⟨by omega, by omega⟩
  · rintro ⟨h1, h2⟩
    exact ⟨b, h2, a, h1, rfl, rfl⟩

theorem nodup_coordsList (w h : ℕ) : (coordsList w h).Nodup := by
  rw [coordsList, List.nodup_flatMap]
  refine ⟨fun y _ => (List.nodup_range w).map fun a b hab => congrArg Prod.fst hab, ?_⟩
  refine (List.pairwise_lt_range h).imp ?_
  intro y y' hyy'
  intro c hc hc'
  simp only [List.mem_map, List.mem_range] at hc hc'
  obtain ⟨x, _, rfl⟩ := hc
  obtain ⟨x', _, h⟩ := hc'
  exact absurd (congrArg Prod.snd h) (by simp; omega)

theorem mem_coordsZ {w h : ℕ} {q : ℤ × ℤ} :
    q ∈ coordsZ w h ↔ 0 ≤ q.1 ∧ q.1 < (w : ℤ) ∧ 0 ≤ q.2 ∧ q.2 < (h : ℤ) := by
  obtain ⟨a, b⟩ := q
  simp only [coordsZ, List.mem_map, Prod.mk.injEq]
  constructor
  · rintro ⟨c, hc, rfl, rfl⟩
    rw [mem_coordsList] at hc
    constructor
    · omega
    refine ⟨by exact_mod_cast hc.1, by omega, by exact_mod_cast hc.2⟩
  · rintro ⟨h1, h2, h3, h4⟩
    refine ⟨(a.toNat, b.toNat), ?_, by omega, by omega⟩
    rw [mem_coordsList]
    exact ⟨by omega, by omega⟩

theorem nodup_coordsZ (w h : ℕ) : (coordsZ w h).Nodup := by
  refine (nodup_coordsList w h).map ?_
  intro c c' hcc'
  obtain ⟨a, b⟩ := c
  obtain ⟨a', b'⟩ := c'
  simp only [Prod.mk.injEq] at hcc'
  exact Prod.ext (by exact_mod_cast hcc'.1) (by exact_mod_cast hcc'.2)

theorem imageToPixels_map_coords {w h : ℕ} (img : Image w h) :
    (imageToPixels img).map (fun p => (p.OriginalX, p.OriginalY)) = coordsZ w h := by
  simp only [imageToPixels, coordsZ, List.map_map]
  rfl

theorem imageToPixels_map_coordsColor {w h : ℕ} (img : Image w h) :
    (imageToPixels img).map (fun p => ((p.OriginalX, p.OriginalY), p.Color)) =
      (coordsZ w h).map (fun q => (q, img.pix q.1.toNat q.2.toNat)) := by
  simp only [imageToPixels, coordsZ, List.map_map]
  refine List.map_congr_left ?_
  intro c _
  simp

theorem mem_imageToPixels {w h : ℕ} (img : Image w h) {p : Pixel}
    (hp : p ∈ imageToPixels img) :
    p.Color = img.pix p.OriginalX.toNat p.OriginalY.toNat ∧
      p.GrayscaleValue = grayscaleValue p.Color := by
  simp only [imageToPixels, List.mem_map] at hp
  obtain ⟨c, _, rfl⟩ := hp
  simp

theorem planPixels_eq_zipWith :
    ∀ {ps : List Pixel} {ts : List PixelFeatured} {l : List AnimationPixel},
      planPixels ps ts = some l →
      l = List.zipWith (fun s t =>
        AnimationPixel.mk s.OriginalX s.OriginalY t.OriginalX t.OriginalY s.Color) ps ts
  | [], _, l, hl => by
    simp only [planPixels, Option.some.injEq] at hl
    simp [← hl]
  | _ :: _, [], l, hl => by simp [planPixels] at hl
  | s :: ss, t :: ts, l, hl => by
    simp only [planPixels, Option.map_eq_some'] at hl
    obtain ⟨l', hl', rfl⟩ := hl
    simp [List.zipWith, planPixels_eq_zipWith hl']

theorem zipWith_left {α β γ : Type*} (f : α → γ) :
    ∀ (l1 : List α) (l2 : List β), l1.length ≤ l2.length →
      List.zipWith (fun a _ => f a) l1 l2 = l1.map f
  | [], _, _ => by simp
  | a :: l1, [], h => by simp at h
  | a :: l1, b :: l2, h => by
    simp only [List.zipWith, List.map]
    rw [zipWith_left f l1 l2 (by simpa using h)]

theorem zipWith_right {α β γ : Type*} (g : β → γ) :
    ∀ (l1 : List α) (l2 : List β),
      List.zipWith (fun _ b => g b) l1 l2 = (l2.take l1.length).map g
  | [], _ => by simp
  | a :: l1, [] => by simp
  | a :: l1, b :: l2 => by
    simp only [List.zipWith, List.length_cons, List.take_succ_cons, List.map]
    rw [zipWith_right g l1 l2]

theorem foldl_max_mem :
    ∀ (l : List ℤ) (b : ℤ), l.foldl max b ∈ l ∨ l.foldl max b = b
  | [], b => Or.inr rfl
  | a :: l, b => by
    rcases foldl_max_mem l (max b a) with h | h
    · exact Or.inl (List.mem_cons_of_mem _ h)
    · rcases max_choice b a with h' | h'
      · exact Or.inr (by rw [List.foldl_cons, h, h'])
      · exact Or.inl (by rw [List.foldl_cons, h, h']; exact List.mem_cons_self _ _)

theorem le_foldl_max (l : List ℤ) (b : ℤ) : b ≤ l.foldl max b := by
  induction l generalizing b with
  | nil => exact le_refl b
  | cons a l ih => exact le_trans (le_max_left b a) (ih (max b a))

theorem mem_le_foldl_max {l : List ℤ} {x : ℤ} (hx : x ∈ l) (b : ℤ) :
    x ≤ l.foldl max b := by
  induction l generalizing b with
  | nil => simp at hx
  | cons a l ih =>
    rcases List.mem_cons.mp hx with rfl | hx
    · exact le_trans (le_max_right b x) (le_foldl_max l _)
    · exact ih hx _

theorem maxMoveSteps_eq_foldl (l : List AnimationPixel) :
    maxMoveSteps l = (l.map chebSteps).foldl max 0 := by
  rw [maxMoveSteps, List.foldl_map]

theorem chebSteps_le_maxMoveSteps {l : List AnimationPixel} {ap : AnimationPixel}
    (h : ap ∈ l) : chebSteps ap ≤ maxMoveSteps l := by
  rw [maxMoveSteps_eq_foldl]
  exact mem_le_foldl_max (List.mem_map_of_mem _ h) 0

theorem maxMoveSteps_nonneg (l : List AnimationPixel) : 0 ≤ maxMoveSteps l := by
  rw [maxMoveSteps_eq_foldl]
  exact le_foldl_max _ 0

theorem goAbs_nonneg (x : ℤ) : 0 ≤ goAbs x := by
  rw [goAbs]
  split <;> omega

theorem chebSteps_nonneg (ap : AnimationPixel) : 0 ≤ chebSteps ap :=
  le_trans (goAbs_nonneg _) (le_max_left _ _)

theorem maxMoveSteps_mem {l : List AnimationPixel} (h : l ≠ []) :
    maxMoveSteps l ∈ l.map chebSteps := by
  rw [maxMoveSteps_eq_foldl]
  rcases foldl_max_mem (l.map chebSteps) 0 with h' | h'
  · exact h'
  · rw [h']
    obtain ⟨a, l', rfl⟩ := List.exists_cons_of_ne_nil h
    have h1 : chebSteps a ∈ (a :: l').map chebSteps := by simp
    have h2 := mem_le_foldl_max h1 0
    rw [h'] at h2
    have h3 := chebSteps_nonneg a
    have : chebSteps a = 0 := le_antisymm h2 h3
    rw [← this]
    exact h1

theorem calculatePixelPosition_zero (ap : AnimationPixel) :
    calculatePixelPosition ap 0 = (ap.StartX, ap.StartY) := by
  simp only [calculatePixelPosition, goMin, goAbs, Prod.mk.injEq]
  split_ifs <;> omega

theorem calculatePixelPosition_final (ap : AnimationPixel) (f : ℤ)
    (h : chebSteps ap ≤ f) :
    calculatePixelPosition ap f = (ap.TargetX, ap.TargetY) := by
  obtain ⟨h1, h2⟩ := max_le_iff.mp h
  simp only [goAbs] at h1 h2
  simp only [calculatePixelPosition, goMin, goAbs, Prod.mk.injEq]
  split_ifs at h1 h2 ⊢ <;> omega

theorem setPix_ne (b : Rectangle) (r : Raster) (x y : ℤ) (c : RGBA) {x' y' : ℤ}
    (h : (x', y') ≠ (x, y)) : setPix b r x y c x' y' = r x' y' := by
  rw [setPix]
  split
  · have : ¬ (x' = x ∧ y' = y) := by
      intro hc
      exact h (by simp [hc.1, hc.2])
    simp [this]
  · rfl

theorem setPix_self (b : Rectangle) (r : Raster) (x y : ℤ) (c : RGBA)
    (hin : 0 ≤ x ∧ x < (b.W : ℤ) ∧ 0 ≤ y ∧ y < (b.H : ℤ)) :
    setPix b r x y c x y = c := by
  rw [setPix, if_pos hin]
  simp

theorem paintAll_not_mem {b : Rectangle} {pos : AnimationPixel → ℤ × ℤ}
    {l : List AnimationPixel} {x y : ℤ} (h : ∀ ap ∈ l, pos ap ≠ (x, y)) :
    ∀ r0 : Raster, paintAll b pos l r0 x y = r0 x y := by
  induction l with
  | nil => intro r0; rfl
  | cons hd t ih =>
    intro r0
    rw [paintAll, List.foldl_cons, ← paintAll]
    rw [ih (fun ap hap => h ap (List.mem_cons_of_mem _ hap))]
    refine setPix_ne b r0 _ _ _ ?_
    intro hc
    refine h hd (List.mem_cons_self _ _) ?_
    rw [hc]

theorem paintAll_out {b : Rectangle} {pos : AnimationPixel → ℤ × ℤ}
    {l : List AnimationPixel} {x y : ℤ}
    (hxy : ¬ (0 ≤ x ∧ x < (b.W : ℤ) ∧ 0 ≤ y ∧ y < (b.H : ℤ))) :
    ∀ r0 : Raster, paintAll b pos l r0 x y = r0 x y := by
  induction l with
  | nil => intro r0; rfl
  | cons hd t ih =>
    intro r0
    rw [paintAll, List.foldl_cons, ← paintAll, ih]
    rw [setPix]
    split
    · rename_i hin
      have : ¬ (x = (pos hd).1 ∧ y = (pos hd).2) := by
        intro hc
        exact hxy (by rw [hc.1, hc.2]; exact hin)
      simp [this]
    · rfl

theorem paintAll_mem {b : Rectangle} {pos : AnimationPixel → ℤ × ℤ} :
    ∀ {l : List AnimationPixel}, (l.map pos).Nodup →
      ∀ {ap : AnimationPixel}, ap ∈ l →
      ∀ {x y : ℤ}, pos ap = (x, y) →
      (0 ≤ x ∧ x < (b.W : ℤ) ∧ 0 ≤ y ∧ y < (b.H : ℤ)) →
      ∀ r0 : Raster, paintAll b pos l r0 x y = ap.Color := by
  intro l
  induction l with
  | nil => intro _ ap hap; simp at hap
  | cons hd t ih =>
    intro hnd ap hap x y hxy hin r0
    rw [List.map_cons, List.nodup_cons] at hnd
    rw [paintAll, List.foldl_cons, ← paintAll]
    rcases List.mem_cons.mp hap with rfl | hap'
    · have hno : ∀ a ∈ t, pos a ≠ (x, y) := by
        intro a ha hc
        exact hnd.1 (by rw [← hxy] at hc; rw [← hc]; exact List.mem_map_of_mem pos ha)
      rw [paintAll_not_mem hno, hxy, setPix_self _ _ _ _ _ hin]
    · exact ih hnd.2 hap' hxy hin _

theorem paintAll_congr {b : Rectangle} {posf posg : AnimationPixel → ℤ × ℤ} :
    ∀ {l : List AnimationPixel}, (∀ ap ∈ l, posf ap = posg ap) →
      ∀ r0 : Raster, paintAll b posf l r0 = paintAll b posg l r0 := by
  intro l
  induction l with
  | nil => intro _ r0; rfl
  | cons hd t ih =>
    intro h r0
    simp only [paintAll, List.foldl_cons]
    rw [h hd (List.mem_cons_self _ _)]
    exact ih (fun ap hap => h ap (List.mem_cons_of_mem _ hap)) _

/-- The motion list a successful run of the `calculatePlan` loop builds
(`planPixels_eq_zipWith`): `sourcePixels[i]` paired with
`targetPixels[i]`. -/
def animZip (ps : List Pixel) (ts : List PixelFeatured) : List AnimationPixel :=
  List.zipWith (fun s t =>
    AnimationPixel.mk s.OriginalX s.OriginalY t.OriginalX t.OriginalY s.Color) ps ts

theorem calculatePlan_eq_some {ps : List Pixel} {ts : List PixelFeatured}
    (b : Rectangle) (hlen : ps.length ≤ ts.length) :
    calculatePlan ps ts b =
      some ⟨animZip ps ts, maxMoveSteps (animZip ps ts) + 1, b⟩ := by
  have h1 : (planPixels ps ts).isSome = true := (planPixels_isSome ps ts).mpr hlen
  obtain ⟨l, hl⟩ := Option.isSome_iff_exists.mp h1
  have h2 := planPixels_eq_zipWith hl
  rw [calculatePlan, hl, Option.map_some', h2]
  rfl

theorem sorted_lengths_default {w h : ℕ} (src tgt : Image w h) :
    (sortPixels (imageToPixels src)).length =
      ((sortPixels (imageToPixels tgt)).map fun p => (⟨p, 0⟩ : PixelFeatured)).length := by
  simp [(sortPixels_perm _).length_eq, imageToPixels_length]

theorem sorted_lengths_featured {w h : ℕ} (src tgt : Image w h) :
    (sortPixels (imageToPixels src)).length = (targetFeatured tgt).length := by
  simp [targetFeatured, (sortPixels_perm _).length_eq,
    (sortPixelsFeatured_perm _).length_eq, imageToPixels_length]

theorem CreateAnimationPlan_eq {w h : ℕ} (src tgt : Image w h) :
    CreateAnimationPlan src tgt =
      { Pixels := animZip (sortPixels (imageToPixels src))
          ((sortPixels (imageToPixels tgt)).map fun p => ⟨p, 0⟩)
        Frames := maxMoveSteps (animZip (sortPixels (imageToPixels src))
          ((sortPixels (imageToPixels tgt)).map fun p => ⟨p, 0⟩)) + 1
        Bounds := ⟨w, h⟩ } := by
  have h := @calculatePlan_eq_some (sortPixels (imageToPixels src))
    ((sortPixels (imageToPixels tgt)).map fun p => ⟨p, 0⟩)
    (⟨w, h⟩ : Rectangle) (le_of_eq (sorted_lengths_default src tgt))
  rw [CreateAnimationPlan]
  simp only [h, Option.get_some]

theorem CreateAnimationPlanFeatured_eq {w h : ℕ} (src tgt : Image w h) :
    CreateAnimationPlanFeatured src tgt =
      { Pixels := animZip (sortPixels (imageToPixels src)) (targetFeatured tgt)
        Frames := maxMoveSteps
          (animZip (sortPixels (imageToPixels src)) (targetFeatured tgt)) + 1
        Bounds := ⟨w, h⟩ } := by
  have h := @calculatePlan_eq_some (sortPixels (imageToPixels src))
    (targetFeatured tgt)
    (⟨w, h⟩ : Rectangle) (le_of_eq (sorted_lengths_featured src tgt))
  rw [CreateAnimationPlanFeatured]
  simp only [h, Option.get_some]

theorem animZip_map_start {ps : List Pixel} {ts : List PixelFeatured}
    (hlen : ps.length ≤ ts.length) :
    (animZip ps ts).map (fun ap => (ap.StartX, ap.StartY)) =
      ps.map fun p => (p.OriginalX, p.OriginalY) := by
  simp only [animZip, List.map_zipWith]
  exact zipWith_left _ ps ts hlen

theorem animZip_map_startColor {ps : List Pixel} {ts : List PixelFeatured}
    (hlen : ps.length ≤ ts.length) :
    (animZip ps ts).map (fun ap => ((ap.StartX, ap.StartY), ap.Color)) =
      ps.map fun p => ((p.OriginalX, p.OriginalY), p.Color) := by
  simp only [animZip, List.map_zipWith]
  exact zipWith_left _ ps ts hlen

theorem animZip_map_target {ps : List Pixel} {ts : List PixelFeatured}
    (hlen : ps.length = ts.length) :
    (animZip ps ts).map (fun ap => (ap.TargetX, ap.TargetY)) =
      ts.map fun t => (t.OriginalX, t.OriginalY) := by
  simp only [animZip, List.map_zipWith]
  have h := zipWith_right (fun t : PixelFeatured => (t.OriginalX, t.OriginalY)) ps ts
  rw [hlen, List.take_length] at h
  exact h

theorem animZip_map_targetColor {ps : List Pixel} {ts : List PixelFeatured} :
    (animZip ps ts).map (fun ap => ((ap.TargetX, ap.TargetY), ap.Color)) =
      List.zipWith (fun (s : Pixel) (t : PixelFeatured) =>
        ((t.OriginalX, t.OriginalY), s.Color)) ps ts := by
  simp only [animZip, List.map_zipWith]

theorem final_pos_of_mem {aps : List AnimationPixel} {ap : AnimationPixel}
    (h : ap ∈ aps) :
    calculatePixelPosition ap (maxMoveSteps aps) = (ap.TargetX, ap.TargetY) :=
  calculatePixelPosition_final _ _ (chebSteps_le_maxMoveSteps h)

theorem paintAll_start_eq_raster {w h : ℕ} (src : Image w h)
    {ps : List Pixel} {ts : List PixelFeatured}
    (hperm : List.Perm ps (imageToPixels src)) (hlen : ps.length ≤ ts.length) :
    paintAll ⟨w, h⟩ (fun ap => calculatePixelPosition ap 0) (animZip ps ts) newRGBA =
      rasterOfImage src := by
  rw [paintAll_congr (fun ap _ => calculatePixelPosition_zero ap) newRGBA]
  funext x y
  by_cases hin : 0 ≤ x ∧ x < (w : ℤ) ∧ 0 ≤ y ∧ y < (h : ℤ)
  · have hmap := animZip_map_startColor hlen
    have hpermpair : List.Perm
        ((animZip ps ts).map fun ap => ((ap.StartX, ap.StartY), ap.Color))
        ((coordsZ w h).map fun q => (q, src.pix q.1.toNat q.2.toNat)) := by
      rw [hmap, ← imageToPixels_map_coordsColor]
      exact hperm.map _
    have hmemq : ((x, y) : ℤ × ℤ) ∈ coordsZ w h := mem_coordsZ.mpr hin
    have hmem : (((x, y) : ℤ × ℤ), src.pix x.toNat y.toNat) ∈
        (coordsZ w h).map fun q => (q, src.pix q.1.toNat q.2.toNat) :=
      List.mem_map_of_mem _ hmemq
    obtain ⟨ap, hap, hpair⟩ := List.mem_map.mp (hpermpair.mem_iff.mpr hmem)
    have h1 : (ap.StartX, ap.StartY) = (x, y) := congrArg Prod.fst hpair
    have h2 : ap.Color = src.pix x.toNat y.toNat := congrArg Prod.snd hpair
    have hnd : ((animZip ps ts).map fun ap => (ap.StartX, ap.StartY)).Nodup := by
      rw [animZip_map_start hlen]
      refine ((hperm.map fun p => (p.OriginalX, p.OriginalY)).nodup_iff).mpr ?_
      rw [imageToPixels_map_coords]
      exact nodup_coordsZ w h
    rw [paintAll_mem hnd hap h1 hin newRGBA, h2, rasterOfImage, if_pos hin]
  · rw [paintAll_out hin, rasterOfImage, if_neg hin]
    rfl

theorem animZip_length (ps : List Pixel) (ts : List PixelFeatured) :
    (animZip ps ts).length = min ps.length ts.length :=
  List.length_zipWith _ _ _

theorem calculatePlan_eq_none {ps : List Pixel} {ts : List PixelFeatured}
    (b : Rectangle) (hlen : ts.length < ps.length) :
    calculatePlan ps ts b = none := by
  have h1 : planPixels ps ts = none := by
    cases hp : planPixels ps ts with
    | none => rfl
    | some l =>
      have h2 := (planPixels_isSome ps ts).mp (by rw [hp]; rfl)
      omega
  rw [calculatePlan, h1]
  rfl

theorem coordsList_eq_nil {w h : ℕ} (himg : w * h = 0) : coordsList w h = [] := by
  rw [List.eq_nil_iff_forall_not_mem]
  intro c hc
  rw [mem_coordsList] at hc
  rcases Nat.mul_eq_zero.mp himg with h0 | h0 <;> omega

theorem imageToPixels_eq_nil {w h : ℕ} (himg : w * h = 0) (img : Image w h) :
    imageToPixels img = [] := by
  rw [imageToPixels, coordsList_eq_nil himg]
  rfl

/-- Sample pixel record for concrete witnesses. -/
def samplePixel : Pixel := ⟨0, 0, 0, zeroRGBA⟩

/-- Sample featured pixel record at coordinate `(1, 1)`. -/
def sampleFeatured : PixelFeatured := ⟨⟨0, 1, 1, zeroRGBA⟩, 0⟩

/-- A zero-area image. -/
def emptyImage : Image 0 0 := ⟨fun _ _ => zeroRGBA⟩

/-- A 1×1 all-black image. -/
def blackImage1x1 : Image 1 1 := ⟨fun _ _ => zeroRGBA⟩

/-- A 2×1 all-black image. -/
def blackImage2x1 : Image 2 1 := ⟨fun _ _ => zeroRGBA⟩

/-- C1: for plans produced by `CreateAnimationPlan` or
`CreateAnimationPlanFeatured` from two equal-dimension images, the frame-0
raster of the linear model reconstructs the source image exactly (every
pixel sits at its start coordinate with its original colour), and at frame
`Frames - 1` every pixel is placed at its assigned target coordinate. -/
theorem C1_boundary_frames {w h : ℕ} (sourceImg targetImg : Image w h) :
    (renderFrame (CreateAnimationPlan sourceImg targetImg) 0 = rasterOfImage sourceImg
      ∧ (∀ ap ∈ (CreateAnimationPlan sourceImg targetImg).Pixels,
          calculatePixelPosition ap 0 = (ap.StartX, ap.StartY))
      ∧ (∀ ap ∈ (CreateAnimationPlan sourceImg targetImg).Pixels,
          calculatePixelPosition ap ((CreateAnimationPlan sourceImg targetImg).Frames - 1) =
            (ap.TargetX, ap.TargetY)))
    ∧ (renderFrame (CreateAnimationPlanFeatured sourceImg targetImg) 0 =
          rasterOfImage sourceImg
      ∧ (∀ ap ∈ (CreateAnimationPlanFeatured sourceImg targetImg).Pixels,
          calculatePixelPosition ap 0 = (ap.StartX, ap.StartY))
      ∧ (∀ ap ∈ (CreateAnimationPlanFeatured sourceImg targetImg).Pixels,
          calculatePixelPosition ap
              ((CreateAnimationPlanFeatured sourceImg targetImg).Frames - 1) =
            (ap.TargetX, ap.TargetY))) := by
  constructor
  · rw [CreateAnimationPlan_eq]
    refine ⟨?_, fun ap _ => calculatePixelPosition_zero ap, fun ap hap => ?_⟩
    · exact paintAll_start_eq_raster sourceImg (sortPixels_perm _)
        (le_of_eq (sorted_lengths_default sourceImg targetImg))
    · simp only [add_sub_cancel_right]
      exact final_pos_of_mem hap
  · rw [CreateAnimationPlanFeatured_eq]
    refine ⟨?_, fun ap _ => calculatePixelPosition_zero ap, fun ap hap => ?_⟩
    · exact paintAll_start_eq_raster sourceImg (sortPixels_perm _)
        (le_of_eq (sorted_lengths_featured sourceImg targetImg))
    · simp only [add_sub_cancel_right]
      exact final_pos_of_mem hap

/-- C2: for every plan `calculatePlan` produces from a non-empty pair of
equal-length ranked sequences, `Frames - 1` is the maximum over all paired
pixels of the Chebyshev distance `max(|dx|, |dy|)`, and every pixel has
arrived at its target by frame `Frames - 1` under the linear model. -/
theorem C2_frame_count (ps : List Pixel) (ts : List PixelFeatured) (b : Rectangle)
    (plan : AnimationPlan) (hne : ps ≠ []) (hlen : ps.length = ts.length)
    (hplan : calculatePlan ps ts b = some plan) :
    (plan.Pixels.map chebSteps).maximum = some (plan.Frames - 1)
      ∧ ∀ ap ∈ plan.Pixels,
          calculatePixelPosition ap (plan.Frames - 1) = (ap.TargetX, ap.TargetY) := by
  rw [calculatePlan_eq_some b (le_of_eq hlen), Option.some.injEq] at hplan
  subst hplan
  have hne' : animZip ps ts ≠ [] := by
    have h1 := animZip_length ps ts
    intro hc
    rw [hc] at h1
    have h2 : ps.length ≠ 0 := fun h0 => hne (List.length_eq_zero.mp h0)
    simp only [List.length_nil] at h1
    omega
  constructor
  · simp only [add_sub_cancel_right]
    have hmax : (List.map chebSteps (animZip ps ts)).maximum =
        ((maxMoveSteps (animZip ps ts) : ℤ) : WithBot ℤ) := by
      rw [List.maximum_eq_coe_iff]
      refine ⟨maxMoveSteps_mem hne', ?_⟩
      intro a ha
      obtain ⟨ap, hap, rfl⟩ := List.mem_map.mp ha
      exact chebSteps_le_maxMoveSteps hap
    exact hmax
  · intro ap hap
    simp only [add_sub_cancel_right]
    exact final_pos_of_mem hap

theorem C2_frame_count_witness :
    ([samplePixel] : List Pixel) ≠ [] ∧
      (([samplePixel] : List Pixel).length = ([sampleFeatured] : List PixelFeatured).length) ∧
      calculatePlan [samplePixel] [sampleFeatured] ⟨2, 2⟩ =
        some ⟨[⟨0, 0, 1, 1, zeroRGBA⟩], 2, ⟨2, 2⟩⟩ ∧
      ((([⟨0, 0, 1, 1, zeroRGBA⟩] : List AnimationPixel).map chebSteps).maximum =
          some ((2 : ℤ) - 1)
        ∧ ∀ ap ∈ ([⟨0, 0, 1, 1, zeroRGBA⟩] : List AnimationPixel),
            calculatePixelPosition ap ((2 : ℤ) - 1) = (ap.TargetX, ap.TargetY)) := by
  refine ⟨by decide, by decide, by decide, ?_⟩
  exact C2_frame_count [samplePixel] [sampleFeatured] ⟨2, 2⟩
    ⟨[⟨0, 0, 1, 1, zeroRGBA⟩], 2, ⟨2, 2⟩⟩ (by decide) (by decide) (by decide)

/-- C9 counterexample: the degenerate plan built from a zero-area image has
frame count `1`, not `0` as the claim states. -/
theorem C9_counterexample :
    (CreateAnimationPlan emptyImage emptyImage).Frames = 1 ∧
      (CreateAnimationPlan emptyImage emptyImage).Frames ≠ 0 := by
  constructor <;> decide

/-- C9 (amended): a zero-area image yields an empty pixel sequence without
error, and the resulting degenerate plan has an empty pixel list and frame
count `1` (a single frame), not zero frames. -/
theorem C9_empty_image {w h : ℕ} (himg : w * h = 0) (img img' : Image w h) :
    imageToPixels img = []
      ∧ (CreateAnimationPlan img img').Pixels = []
      ∧ (CreateAnimationPlan img img').Frames = 1
      ∧ (CreateAnimationPlanFeatured img img').Pixels = []
      ∧ (CreateAnimationPlanFeatured img img').Frames = 1 := by
  have hnil := imageToPixels_eq_nil himg img
  have hnil' := imageToPixels_eq_nil himg img'
  rw [CreateAnimationPlan_eq, CreateAnimationPlanFeatured_eq]
  rw [hnil]
  have hsort : sortPixels [] = [] := rfl
  rw [hsort]
  have hzip1 : animZip [] ((sortPixels (imageToPixels img')).map fun p => ⟨p, 0⟩) = [] := rfl
  have hzip2 : animZip [] (targetFeatured img') = [] := rfl
  rw [hzip1, hzip2]
  refine ⟨rfl, rfl, rfl, rfl, rfl⟩

theorem C9_empty_image_witness :
    (0 : ℕ) * 0 = 0 ∧
      (imageToPixels emptyImage = []
        ∧ (CreateAnimationPlan emptyImage emptyImage).Pixels = []
        ∧ (CreateAnimationPlan emptyImage emptyImage).Frames = 1
        ∧ (CreateAnimationPlanFeatured emptyImage emptyImage).Pixels = []
        ∧ (CreateAnimationPlanFeatured emptyImage emptyImage).Frames = 1) :=
  ⟨rfl, C9_empty_image rfl emptyImage emptyImage⟩

/-- C8 counterexample: `calculatePlan` given ranked sequences of different
lengths (`0` source pixels, `1` target pixel) silently produces a plan
instead of failing with a dimension-mismatch error. -/
theorem C8_counterexample :
    (([] : List Pixel).length ≠ ([sampleFeatured] : List PixelFeatured).length)
      ∧ calculatePlan [] [sampleFeatured] ⟨1, 1⟩ = some ⟨[], 1, ⟨1, 1⟩⟩ := by
  constructor <;> decide

/-- C8 (amended): `calculatePlan` performs no length check of its own: with
a target sequence shorter than the source it fails by an out-of-range
slice index (modelled `none`), not a dimension-mismatch error, and with a
target sequence at least as long it produces a plan pairing the first
`len(source)` entries even when the lengths differ.  The dimension-mismatch
error is produced by the image-level caller `reorderImages` when the pixel
counts differ. -/
theorem C8_no_length_check :
    (∀ (ps : List Pixel) (ts : List PixelFeatured) (b : Rectangle),
        ts.length < ps.length → calculatePlan ps ts b = none)
      ∧ (∀ (ps : List Pixel) (ts : List PixelFeatured) (b : Rectangle),
          ps.length ≤ ts.length →
            ∃ plan, calculatePlan ps ts b = some plan ∧ plan.Pixels.length = ps.length)
      ∧ (∀ (w1 h1 w2 h2 : ℕ) (src : Image w1 h1) (tgt : Image w2 h2),
          (imageToPixels src).length ≠ (imageToPixels tgt).length →
            reorderImages src tgt = Except.error
              "source and target images must have the same number of pixels (dimensions)") := by
  refine ⟨fun ps ts b hlen => calculatePlan_eq_none b hlen, ?_, ?_⟩
  · intro ps ts b hlen
    refine ⟨⟨animZip ps ts, maxMoveSteps (animZip ps ts) + 1, b⟩,
      calculatePlan_eq_some b hlen, ?_⟩
    rw [animZip_length]
    omega
  · intro w1 h1 w2 h2 src tgt hne
    rw [reorderImages, if_pos hne]

theorem C8_no_length_check_witness :
    calculatePlan [samplePixel] [] ⟨1, 1⟩ = none
      ∧ (∃ plan, calculatePlan [] [sampleFeatured] ⟨1, 1⟩ = some plan
          ∧ plan.Pixels.length = ([] : List Pixel).length)
      ∧ reorderImages blackImage2x1 blackImage1x1 = Except.error
          "source and target images must have the same number of pixels (dimensions)" :=
  ⟨C8_no_length_check.1 [samplePixel] [] ⟨1, 1⟩ (by decide),
    C8_no_length_check.2.1 [] [sampleFeatured] ⟨1, 1⟩ (by decide),
    C8_no_length_check.2.2 2 1 1 1 blackImage2x1 blackImage1x1 (by decide)⟩

/-- C10: for every plan the program constructs, the raster painted by
`SaveImage` (each pixel's colour directly at its target coordinate, in
plan order) is pixel-for-pixel identical, before palette quantisation or
encoding, to the raster the linear-model frame renderer produces at frame
`Frames - 1`. -/
theorem C10_saveImage_eq_last_frame {w h : ℕ} (sourceImg targetImg : Image w h) :
    saveImageRaster (CreateAnimationPlan sourceImg targetImg) =
        renderFrame (CreateAnimationPlan sourceImg targetImg)
          ((CreateAnimationPlan sourceImg targetImg).Frames - 1)
      ∧ saveImageRaster (CreateAnimationPlanFeatured sourceImg targetImg) =
          renderFrame (CreateAnimationPlanFeatured sourceImg targetImg)
            ((CreateAnimationPlanFeatured sourceImg targetImg).Frames - 1) := by
  constructor
  · rw [CreateAnimationPlan_eq]
    simp only [saveImageRaster, renderFrame, add_sub_cancel_right]
    exact paintAll_congr (fun ap hap => (final_pos_of_mem hap).symm) newRGBA
  · rw [CreateAnimationPlanFeatured_eq]
    simp only [saveImageRaster, renderFrame, add_sub_cancel_right]
    exact paintAll_congr (fun ap hap => (final_pos_of_mem hap).symm) newRGBA

theorem sortPixels_map_coords_perm {w h : ℕ} (img : Image w h) :
    List.Perm ((sortPixels (imageToPixels img)).map fun p => (p.OriginalX, p.OriginalY))
      (coordsZ w h) := by
  have h1 := (sortPixels_perm (imageToPixels img)).map
    fun p : Pixel => (p.OriginalX, p.OriginalY)
  rwa [imageToPixels_map_coords] at h1

theorem targetFeatured_map_toPixel_perm {w h : ℕ} (tgt : Image w h) :
    List.Perm ((targetFeatured tgt).map fun t => t.toPixel) (imageToPixels tgt) := by
  rw [targetFeatured]
  have h1 := (sortPixelsFeatured_perm ((imageToPixels tgt).map fun p =>
    ⟨p, calculateIntervalDepth p.OriginalX p.OriginalY (grayGrid tgt) ⟨w, h⟩⟩)).map
    fun t : PixelFeatured => t.toPixel
  refine h1.trans ?_
  rw [List.map_map]
  have h2 : ((fun t : PixelFeatured => t.toPixel) ∘ fun p : Pixel =>
      (⟨p, calculateIntervalDepth p.OriginalX p.OriginalY (grayGrid tgt) ⟨w, h⟩⟩ :
        PixelFeatured)) = id := rfl
  rw [h2, List.map_id]

theorem targetFeatured_map_coords_perm {w h : ℕ} (tgt : Image w h) :
    List.Perm ((targetFeatured tgt).map fun t => (t.OriginalX, t.OriginalY))
      (coordsZ w h) := by
  have h1 := (targetFeatured_map_toPixel_perm tgt).map
    fun p : Pixel => (p.OriginalX, p.OriginalY)
  rw [List.map_map, imageToPixels_map_coords] at h1
  exact h1

theorem default_start_coords_perm {w h : ℕ} (src tgt : Image w h) :
    List.Perm ((animZip (sortPixels (imageToPixels src))
        ((sortPixels (imageToPixels tgt)).map fun p => ⟨p, 0⟩)).map
          fun ap => (ap.StartX, ap.StartY))
      (coordsZ w h) := by
  rw [animZip_map_start (le_of_eq (sorted_lengths_default src tgt))]
  exact sortPixels_map_coords_perm src

theorem featured_start_coords_perm {w h : ℕ} (src tgt : Image w h) :
    List.Perm ((animZip (sortPixels (imageToPixels src)) (targetFeatured tgt)).map
        fun ap => (ap.StartX, ap.StartY))
      (coordsZ w h) := by
  rw [animZip_map_start (le_of_eq (sorted_lengths_featured src tgt))]
  exact sortPixels_map_coords_perm src

theorem default_target_coords_perm {w h : ℕ} (src tgt : Image w h) :
    List.Perm ((animZip (sortPixels (imageToPixels src))
        ((sortPixels (imageToPixels tgt)).map fun p => ⟨p, 0⟩)).map
          fun ap => (ap.TargetX, ap.TargetY))
      (coordsZ w h) := by
  rw [animZip_map_target (sorted_lengths_default src tgt), List.map_map]
  exact sortPixels_map_coords_perm tgt

theorem featured_target_coords_perm {w h : ℕ} (src tgt : Image w h) :
    List.Perm ((animZip (sortPixels (imageToPixels src)) (targetFeatured tgt)).map
        fun ap => (ap.TargetX, ap.TargetY))
      (coordsZ w h) := by
  rw [animZip_map_target (sorted_lengths_featured src tgt)]
  exact targetFeatured_map_coords_perm tgt

/-- C3: the sorted sequences of the Correspondence Builder are
permutations of the extraction-order sequences, so the induced pairing of
a plan maps the `w·h` source coordinates bijectively onto the `w·h` target
coordinates: the start coordinates of the plan pixels are a permutation of
all coordinates, and so are the target coordinates, for both algorithms. -/
theorem C3_bijection {w h : ℕ} (sourceImg targetImg : Image w h) :
    (List.Perm (sortPixels (imageToPixels sourceImg)) (imageToPixels sourceImg)
      ∧ List.Perm (sortPixels (imageToPixels targetImg)) (imageToPixels targetImg)
      ∧ List.Perm ((targetFeatured targetImg).map fun t => t.toPixel)
          (imageToPixels targetImg))
    ∧ (List.Perm ((CreateAnimationPlan sourceImg targetImg).Pixels.map
          fun ap => (ap.StartX, ap.StartY)) (coordsZ w h)
      ∧ List.Perm ((CreateAnimationPlan sourceImg targetImg).Pixels.map
          fun ap => (ap.TargetX, ap.TargetY)) (coordsZ w h))
    ∧ (List.Perm ((CreateAnimationPlanFeatured sourceImg targetImg).Pixels.map
          fun ap => (ap.StartX, ap.StartY)) (coordsZ w h)
      ∧ List.Perm ((CreateAnimationPlanFeatured sourceImg targetImg).Pixels.map
          fun ap => (ap.TargetX, ap.TargetY)) (coordsZ w h)) := by
  refine ⟨⟨sortPixels_perm _, sortPixels_perm _, targetFeatured_map_toPixel_perm _⟩, ?_, ?_⟩
  · rw [CreateAnimationPlan_eq]
    exact ⟨default_start_coords_perm sourceImg targetImg,
      default_target_coords_perm sourceImg targetImg⟩
  · rw [CreateAnimationPlanFeatured_eq]
    exact ⟨featured_start_coords_perm sourceImg targetImg,
      featured_target_coords_perm sourceImg targetImg⟩

theorem foldl_add_eq_sum {α : Type*} (f : α → ℚ) :
    ∀ (l : List α) (b : ℚ), l.foldl (fun s c => s + f c) b = b + (l.map f).sum
  | [], b => by simp
  | c :: l, b => by
    simp only [List.foldl_cons, List.map_cons, List.sum_cons]
    rw [foldl_add_eq_sum f l (b + f c)]
    ring

theorem CalculateGrayscaleSum_eq_sum {w h : ℕ} (img : Image w h) :
    CalculateGrayscaleSum img =
      ((coordsList w h).map fun c => grayscaleValue (img.pix c.1 c.2)).sum := by
  rw [CalculateGrayscaleSum, foldl_add_eq_sum, zero_add]

theorem animZip_map_gray {ps : List Pixel} {ts : List PixelFeatured}
    (hlen : ps.length ≤ ts.length) :
    (animZip ps ts).map (fun ap => grayscaleValue ap.Color) =
      ps.map fun p => grayscaleValue p.Color := by
  simp only [animZip, List.map_zipWith]
  exact zipWith_left _ ps ts hlen

theorem grayscaleSum_paintAll_targets {w h : ℕ} (src : Image w h)
    (ps : List Pixel) (ts : List PixelFeatured)
    (hperm : List.Perm ps (imageToPixels src))
    (hlen : ps.length = ts.length)
    (htgt : List.Perm ((animZip ps ts).map fun ap => (ap.TargetX, ap.TargetY))
      (coordsZ w h)) :
    CalculateGrayscaleSum (rasterToImage w h
        (paintAll ⟨w, h⟩ (fun ap => (ap.TargetX, ap.TargetY)) (animZip ps ts) newRGBA)) =
      CalculateGrayscaleSum src := by
  rw [CalculateGrayscaleSum_eq_sum, CalculateGrayscaleSum_eq_sum]
  have h1 : ((coordsList w h).map fun c => grayscaleValue
      ((rasterToImage w h (paintAll ⟨w, h⟩ (fun ap => (ap.TargetX, ap.TargetY))
        (animZip ps ts) newRGBA)).pix c.1 c.2)) =
      (coordsZ w h).map fun q => grayscaleValue
        (paintAll ⟨w, h⟩ (fun ap => (ap.TargetX, ap.TargetY))
          (animZip ps ts) newRGBA q.1 q.2) := by
    simp only [rasterToImage, coordsZ, List.map_map]
    rfl
  rw [h1]
  have h2 := (htgt.map fun q => grayscaleValue
    (paintAll ⟨w, h⟩ (fun ap => (ap.TargetX, ap.TargetY))
      (animZip ps ts) newRGBA q.1 q.2)).sum_eq
  rw [← h2, List.map_map]
  have h4 : ∀ ap ∈ animZip ps ts,
      paintAll ⟨w, h⟩ (fun ap => (ap.TargetX, ap.TargetY)) (animZip ps ts) newRGBA
        ap.TargetX ap.TargetY = ap.Color := by
    intro ap hap
    have hndT : ((animZip ps ts).map fun ap => (ap.TargetX, ap.TargetY)).Nodup :=
      (htgt.nodup_iff).mpr (nodup_coordsZ w h)
    have hinq : (ap.TargetX, ap.TargetY) ∈ coordsZ w h :=
      htgt.subset (List.mem_map_of_mem _ hap)
    exact paintAll_mem hndT hap rfl (mem_coordsZ.mp hinq) newRGBA
  have h5 : (animZip ps ts).map ((fun q : ℤ × ℤ => grayscaleValue
      (paintAll ⟨w, h⟩ (fun ap => (ap.TargetX, ap.TargetY))
        (animZip ps ts) newRGBA q.1 q.2)) ∘ fun ap => (ap.TargetX, ap.TargetY)) =
      (animZip ps ts).map fun ap => grayscaleValue ap.Color := by
    refine List.map_congr_left ?_
    intro ap hap
    simp only [Function.comp]
    rw [h4 ap hap]
  rw [h5, animZip_map_gray (le_of_eq hlen)]
  have h6 := (hperm.map fun p => grayscaleValue p.Color).sum_eq
  rw [h6]
  simp only [imageToPixels, List.map_map]
  rfl

/-- C4: for both algorithms, the total luma of the source image equals the
total luma of the in-memory raster obtained by painting every plan pixel's
colour at its target coordinate (the final-frame arrangement); in the
exact-rational model the difference is `0`, in particular below the fixed
tolerance `1e-4` checked by the analyze command. -/
theorem C4_luma_conservation {w h : ℕ} (sourceImg targetImg : Image w h) :
    |CalculateGrayscaleSum sourceImg -
        CalculateGrayscaleSum (rasterToImage w h
          (saveImageRaster (CreateAnimationPlan sourceImg targetImg)))| < 1 / 10000
      ∧ |CalculateGrayscaleSum sourceImg -
          CalculateGrayscaleSum (rasterToImage w h
            (saveImageRaster (CreateAnimationPlanFeatured sourceImg targetImg)))| <
        1 / 10000 := by
  constructor
  · rw [CreateAnimationPlan_eq]
    have h1 := grayscaleSum_paintAll_targets sourceImg
      (sortPixels (imageToPixels sourceImg))
      ((sortPixels (imageToPixels targetImg)).map fun p => ⟨p, 0⟩)
      (sortPixels_perm _) (sorted_lengths_default sourceImg targetImg)
      (default_target_coords_perm sourceImg targetImg)
    rw [saveImageRaster]
    rw [show ((⟨animZip (sortPixels (imageToPixels sourceImg))
        ((sortPixels (imageToPixels targetImg)).map fun p => ⟨p, 0⟩),
      maxMoveSteps (animZip (sortPixels (imageToPixels sourceImg))
        ((sortPixels (imageToPixels targetImg)).map fun p => ⟨p, 0⟩)) + 1,
      ⟨w, h⟩⟩ : AnimationPlan).Bounds) = (⟨w, h⟩ : Rectangle) from rfl]
    rw [h1]
    simp
  · rw [CreateAnimationPlanFeatured_eq]
    have h1 := grayscaleSum_paintAll_targets sourceImg
      (sortPixels (imageToPixels sourceImg)) (targetFeatured targetImg)
      (sortPixels_perm _) (sorted_lengths_featured sourceImg targetImg)
      (featured_target_coords_perm sourceImg targetImg)
    rw [saveImageRaster]
    rw [show ((⟨animZip (sortPixels (imageToPixels sourceImg)) (targetFeatured targetImg),
      maxMoveSteps (animZip (sortPixels (imageToPixels sourceImg))
        (targetFeatured targetImg)) + 1,
      ⟨w, h⟩⟩ : AnimationPlan).Bounds) = (⟨w, h⟩ : Rectangle) from rfl]
    rw [h1]
    simp

/-- A 2×1 image whose two pixels have equal luma but different green
channels: `0.587·31 = 0.299·1 + 0.114·157 = 18.197`.  The tie is exact in
the rational model and also bit-for-bit in Go's `float64` evaluation
`R*0.299 + G*0.587 + B*0.114`: both sides round to the double
`18.197` (bit pattern `0x4032326E978D4FDF`).  Green `31` sits at `x = 0`,
green `0` at `x = 1`. -/
def tieImage2x1 : Image 2 1 :=
  ⟨fun x _ => if x = 0 then ⟨0, 31, 0, 255⟩ else ⟨1, 0, 157, 255⟩⟩

theorem tie_luma_eq :
    grayscaleValue ⟨0, 31, 0, 255⟩ = grayscaleValue ⟨1, 0, 157, 255⟩ := by
  rw [grayscaleValue, grayscaleValue]
  norm_num

/-- C5 counterexample: in the standalone `main.go` variant the comparator
is luma-only, so sorting the two equal-luma pixels of `tieImage2x1` (tied
bit-for-bit in `float64` as well as in the exact model) leaves them in
extraction order with green channels `[31, 0]` — the record with the
smaller green channel comes second, contradicting the claimed
`(score, green, red)` order for every pipeline variant. -/
theorem C5_counterexample :
    ((sortPixelsMain (imageToPixels tieImage2x1)).map fun p => p.GrayscaleValue) =
        [grayscaleValue ⟨0, 31, 0, 255⟩, grayscaleValue ⟨0, 31, 0, 255⟩]
      ∧ ((sortPixelsMain (imageToPixels tieImage2x1)).map fun p => p.Color.G) = [31, 0] := by
  have himg : imageToPixels tieImage2x1 =
      [⟨grayscaleValue ⟨0, 31, 0, 255⟩, 0, 0, ⟨0, 31, 0, 255⟩⟩,
        ⟨grayscaleValue ⟨1, 0, 157, 255⟩, 1, 0, ⟨1, 0, 157, 255⟩⟩] := rfl
  have hle : MainPixels.le ⟨grayscaleValue ⟨0, 31, 0, 255⟩, 0, 0, ⟨0, 31, 0, 255⟩⟩
      ⟨grayscaleValue ⟨1, 0, 157, 255⟩, 1, 0, ⟨1, 0, 157, 255⟩⟩ := by
    rw [mainPixelsLe_iff]
    exact le_of_eq tie_luma_eq
  have hsort : sortPixelsMain (imageToPixels tieImage2x1) =
      [⟨grayscaleValue ⟨0, 31, 0, 255⟩, 0, 0, ⟨0, 31, 0, 255⟩⟩,
        ⟨grayscaleValue ⟨1, 0, 157, 255⟩, 1, 0, ⟨1, 0, 157, 255⟩⟩] := by
    rw [himg, sortPixelsMain]
    show List.orderedInsert MainPixels.le _ (List.insertionSort MainPixels.le _) = _
    rw [show List.insertionSort MainPixels.le
        [⟨grayscaleValue ⟨1, 0, 157, 255⟩, 1, 0, ⟨1, 0, 157, 255⟩⟩] =
        [⟨grayscaleValue ⟨1, 0, 157, 255⟩, 1, 0, ⟨1, 0, 157, 255⟩⟩] from rfl]
    exact List.orderedInsert_of_le _ _ hle
  rw [hsort]
  constructor
  · simp only [List.map_cons, List.map_nil]
    rw [tie_luma_eq]
  · rfl

/-- The total order key stated by the spec for strategy `default`:
score ascending, then green ascending, then red ascending. -/
def defaultKeyLe (a b : Pixel) : Prop :=
  a.GrayscaleValue < b.GrayscaleValue
    ∨ (a.GrayscaleValue = b.GrayscaleValue ∧ (a.Color.G < b.Color.G
        ∨ (a.Color.G = b.Color.G ∧ a.Color.R ≤ b.Color.R)))

/-- The ranking key stated by the spec for strategy `featured`:
score ascending, then interval depth ascending. -/
def featuredKeyLe (a b : PixelFeatured) : Prop :=
  a.GrayscaleValue < b.GrayscaleValue
    ∨ (a.GrayscaleValue = b.GrayscaleValue ∧ a.IntervalDepth ≤ b.IntervalDepth)

theorem defaultKeyLe_iff (a b : Pixel) :
    defaultKeyLe a b ↔ pixelKey a ≤ pixelKey b := by
  rw [defaultKeyLe, pixelKey, pixelKey, Prod.Lex.le_iff, Prod.Lex.le_iff]

theorem featuredKeyLe_iff (a b : PixelFeatured) :
    featuredKeyLe a b ↔ pixelFeaturedKey a ≤ pixelFeaturedKey b := by
  rw [featuredKeyLe, pixelFeaturedKey, pixelFeaturedKey, Prod.Lex.le_iff]

/-- C5 (amended): sorts that use the `reorder.go` comparator (both sorts of
`CreateAnimationPlan` and the source sort of `CreateAnimationPlanFeatured`)
order records by the total order key `(score asc, green asc, red asc)` and
permute their input; the standalone `main.go` variant instead sorts by
score alone, so equal-luma records carry no green/red guarantee there. -/
theorem C5_sort_order (l : List Pixel) :
    (List.Sorted defaultKeyLe (sortPixels l) ∧ List.Perm (sortPixels l) l)
      ∧ (List.Sorted (fun a b => a.GrayscaleValue ≤ b.GrayscaleValue) (sortPixelsMain l)
        ∧ List.Perm (sortPixelsMain l) l) := by
  refine ⟨⟨?_, sortPixels_perm l⟩, ?_, sortPixelsMain_perm l⟩
  · exact (sortPixels_sorted l).imp fun hab =>
      (defaultKeyLe_iff _ _).mpr ((pixelsLe_iff _ _).mp hab)
  · exact (sortPixelsMain_sorted l).imp fun hab => (mainPixelsLe_iff _ _).mp hab

/-- A pixel record with zero luma and zero green/red channels. -/
def tiePixelA : Pixel := ⟨0, 0, 0, ⟨0, 0, 0, 0⟩⟩

/-- A distinct record equal to `tiePixelA` on every comparator key
(score, green, red) but differing in the blue channel and the position. -/
def tiePixelB : Pixel := ⟨0, 1, 0, ⟨0, 0, 255, 0⟩⟩

/-- C7 counterexample: the two distinct records `tiePixelA` and `tiePixelB`
agree on every listed key, and the comparator answers `false` in both
directions for them (and likewise for the featured comparator at equal
score and depth): the comparison is not a fully-specified total order and
falls back to no further resolution of its own. -/
theorem C7_counterexample :
    tiePixelA ≠ tiePixelB
      ∧ Pixels.Less tiePixelA tiePixelB = false
      ∧ Pixels.Less tiePixelB tiePixelA = false
      ∧ (⟨tiePixelA, 0⟩ : PixelFeatured) ≠ ⟨tiePixelB, 0⟩
      ∧ PixelsFeatured.Less ⟨tiePixelA, 0⟩ ⟨tiePixelB, 0⟩ = false
      ∧ PixelsFeatured.Less ⟨tiePixelB, 0⟩ ⟨tiePixelA, 0⟩ = false := by
  refine ⟨by decide, by decide, by decide, by decide, by decide, by decide⟩

/-- C7 (amended): records that agree on every listed key (`default`:
score, green, red; `featured`: score, interval depth) are tied — the
comparator returns `false` in both directions, with no further fallback of
its own — and sorting any sequence containing such ties neither errors nor
fails to terminate: the sort is a total function whose output is a
permutation of its input (the relative order of fully tied records is
whatever the deterministic sort algorithm leaves, not a comparator key). -/
theorem C7_tiebreak :
    (∀ a b : Pixel, a.GrayscaleValue = b.GrayscaleValue → a.Color.G = b.Color.G →
        a.Color.R = b.Color.R → Pixels.Less a b = false ∧ Pixels.Less b a = false)
      ∧ (∀ a b : PixelFeatured, a.GrayscaleValue = b.GrayscaleValue →
          a.IntervalDepth = b.IntervalDepth →
            PixelsFeatured.Less a b = false ∧ PixelsFeatured.Less b a = false)
      ∧ (∀ l : List Pixel, List.Perm (sortPixels l) l)
      ∧ (∀ l : List PixelFeatured, List.Perm (sortPixelsFeatured l) l) := by
  refine ⟨?_, ?_, sortPixels_perm, sortPixelsFeatured_perm⟩
  · intro a b h1 h2 h3
    constructor <;> simp [Pixels.Less, h1, h2, h3]
  · intro a b h1 h2
    constructor <;> simp [PixelsFeatured.Less, h1, h2]

theorem C7_tiebreak_witness :
    (Pixels.Less tiePixelA tiePixelB = false ∧ Pixels.Less tiePixelB tiePixelA = false)
      ∧ (PixelsFeatured.Less ⟨tiePixelA, 0⟩ ⟨tiePixelB, 0⟩ = false
        ∧ PixelsFeatured.Less ⟨tiePixelB, 0⟩ ⟨tiePixelA, 0⟩ = false)
      ∧ List.Perm (sortPixels [tiePixelA, tiePixelB]) [tiePixelA, tiePixelB]
      ∧ List.Perm (sortPixelsFeatured [⟨tiePixelA, 0⟩, ⟨tiePixelB, 0⟩])
          [⟨tiePixelA, 0⟩, ⟨tiePixelB, 0⟩] :=
  ⟨C7_tiebreak.1 tiePixelA tiePixelB rfl rfl rfl,
    C7_tiebreak.2.1 ⟨tiePixelA, 0⟩ ⟨tiePixelB, 0⟩ rfl rfl,
    C7_tiebreak.2.2.1 [tiePixelA, tiePixelB],
    C7_tiebreak.2.2.2 [⟨tiePixelA, 0⟩, ⟨tiePixelB, 0⟩]⟩

theorem mem_windowCoords {cx cy : ℤ} {radius : ℕ} {p : ℤ × ℤ} :
    p ∈ windowCoords cx cy radius ↔
      cx - radius ≤ p.1 ∧ p.1 ≤ cx + radius ∧ cy - radius ≤ p.2 ∧ p.2 ≤ cy + radius := by
  obtain ⟨a, b⟩ := p
  simp only [windowCoords, List.mem_flatMap, List.mem_map, List.mem_range, Prod.mk.injEq]
  constructor
  · rintro ⟨j, hj, i, hi, rfl, rfl⟩
    refine ⟨by omega, by omega, by omega, by omega⟩
  · rintro ⟨h1, h2, h3, h4⟩
    refine ⟨(b - (cy - radius)).toNat, by omega, (a - (cx - radius)).toNat, by omega,
      by omega, by omega⟩

theorem nodup_windowCoords (cx cy : ℤ) (radius : ℕ) :
    (windowCoords cx cy radius).Nodup := by
  rw [windowCoords, List.nodup_flatMap]
  constructor
  · intro j _
    refine (List.nodup_range (2 * radius + 1)).map ?_
    intro a b hab
    have h1 := congrArg Prod.fst hab
    simp only at h1
    omega
  · refine (List.pairwise_lt_range (2 * radius + 1)).imp ?_
    intro j j' hjj'
    intro c hc hc'
    simp only [List.mem_map, List.mem_range] at hc hc'
    obtain ⟨i, _, rfl⟩ := hc
    obtain ⟨i', _, h⟩ := hc'
    have h2 := congrArg Prod.snd h
    simp only at h2
    omega

/-- The spec's wording of the clipped window average: the window is the
square of side `2·radius + 1` centred at `(cx, cy)`, intersected with the
image bounds, and the denominator is the number of in-bounds samples
(never the nominal window area). -/
def avgGrayFinset (cx cy : ℤ) (radius : ℕ) (grid : ℤ → ℤ → ℚ)
    (bounds : Rectangle) : ℚ :=
  let S := ((Finset.Icc (cx - radius) (cx + radius)) ×ˢ
    (Finset.Icc (cy - radius) (cy + radius))).filter
      fun p => 0 ≤ p.1 ∧ p.1 < (bounds.W : ℤ) ∧ 0 ≤ p.2 ∧ p.2 < (bounds.H : ℤ)
  if S.card = 0 then 0 else (∑ p in S, grid p.2 p.1) / (S.card : ℚ)

theorem calculateAverageGray_eq_spec (cx cy : ℤ) (radius : ℕ) (grid : ℤ → ℤ → ℚ)
    (bounds : Rectangle) :
    calculateAverageGray cx cy radius grid bounds =
      avgGrayFinset cx cy radius grid bounds := by
  rw [calculateAverageGray, avgGrayFinset]
  have hnd : ((windowCoords cx cy radius).filter fun p =>
      0 ≤ p.1 ∧ p.1 < (bounds.W : ℤ) ∧ 0 ≤ p.2 ∧ p.2 < (bounds.H : ℤ)).Nodup :=
    (nodup_windowCoords cx cy radius).filter _
  have hset : ((windowCoords cx cy radius).filter fun p =>
      0 ≤ p.1 ∧ p.1 < (bounds.W : ℤ) ∧ 0 ≤ p.2 ∧ p.2 < (bounds.H : ℤ)).toFinset =
      ((Finset.Icc (cx - radius) (cx + radius)) ×ˢ
        (Finset.Icc (cy - radius) (cy + radius))).filter
          fun p => 0 ≤ p.1 ∧ p.1 < (bounds.W : ℤ) ∧ 0 ≤ p.2 ∧ p.2 < (bounds.H : ℤ) := by
    ext p
    rw [List.mem_toFinset, List.mem_filter, Finset.mem_filter, Finset.mem_product,
      Finset.mem_Icc, Finset.mem_Icc]
    rw [mem_windowCoords]
    simp only [decide_eq_true_eq]
    constructor
    · rintro ⟨⟨h1, h2, h3, h4⟩, h5⟩
      exact ⟨⟨⟨h1, h2⟩, h3, h4⟩, h5⟩
    · rintro ⟨⟨⟨h1, h2⟩, h3, h4⟩, h5⟩
      exact ⟨⟨h1, h2, h3, h4⟩, h5⟩
  have hcard : ((windowCoords cx cy radius).filter fun p =>
      0 ≤ p.1 ∧ p.1 < (bounds.W : ℤ) ∧ 0 ≤ p.2 ∧ p.2 < (bounds.H : ℤ)).length =
      (((Finset.Icc (cx - radius) (cx + radius)) ×ˢ
        (Finset.Icc (cy - radius) (cy + radius))).filter
          fun p => 0 ≤ p.1 ∧ p.1 < (bounds.W : ℤ) ∧ 0 ≤ p.2 ∧ p.2 < (bounds.H : ℤ)).card := by
    rw [← hset, List.toFinset_card_of_nodup hnd]
  have hsum : (((windowCoords cx cy radius).filter fun p =>
      0 ≤ p.1 ∧ p.1 < (bounds.W : ℤ) ∧ 0 ≤ p.2 ∧ p.2 < (bounds.H : ℤ)).map
        fun p => grid p.2 p.1).sum =
      ∑ p in (((Finset.Icc (cx - radius) (cx + radius)) ×ˢ
        (Finset.Icc (cy - radius) (cy + radius))).filter
          fun p => 0 ≤ p.1 ∧ p.1 < (bounds.W : ℤ) ∧ 0 ≤ p.2 ∧ p.2 < (bounds.H : ℤ)),
        grid p.2 p.1 := by
    rw [← hset, List.sum_toFinset _ hnd]
  rw [hcard, hsum]

/-- C6: under strategy `featured` only the target sequence is re-ranked,
by the key `(score ascending, localDepth ascending)` with
`localDepth = 0.75 · avg(3×3 window) + 0.25 · avg(5×5 window)` of the
grayscale grid, each window clipped at the image borders with the
denominator equal to the actual number of in-bounds samples; the source
sequence is still sorted with the full default ranking. -/
theorem C6_featured_ranking {w h : ℕ} (sourceImg targetImg : Image w h) :
    List.Sorted featuredKeyLe (targetFeatured targetImg)
      ∧ List.Perm ((targetFeatured targetImg).map fun t => t.toPixel)
          (imageToPixels targetImg)
      ∧ (∀ t ∈ targetFeatured targetImg,
          t.IntervalDepth =
            (0.75 : ℚ) * avgGrayFinset t.OriginalX t.OriginalY 1
                (grayGrid targetImg) ⟨w, h⟩
              + (0.25 : ℚ) * avgGrayFinset t.OriginalX t.OriginalY 2
                  (grayGrid targetImg) ⟨w, h⟩)
      ∧ List.Sorted defaultKeyLe (sortPixels (imageToPixels sourceImg)) := by
  refine ⟨?_, targetFeatured_map_toPixel_perm targetImg, ?_, ?_⟩
  · exact (sortPixelsFeatured_sorted _).imp fun hab =>
      (featuredKeyLe_iff _ _).mpr ((pixelsFeaturedLe_iff _ _).mp hab)
  · intro t ht
    have ht' : t ∈ (imageToPixels targetImg).map fun p =>
        (⟨p, calculateIntervalDepth p.OriginalX p.OriginalY (grayGrid targetImg)
          ⟨w, h⟩⟩ : PixelFeatured) :=
      (sortPixelsFeatured_perm _).subset ht
    obtain ⟨p, _, rfl⟩ := List.mem_map.mp ht'
    show calculateIntervalDepth p.OriginalX p.OriginalY (grayGrid targetImg) ⟨w, h⟩ = _
    rw [calculateIntervalDepth]
    simp only
    rw [calculateAverageGray_eq_spec, calculateAverageGray_eq_spec]
    ring
  · exact (sortPixels_sorted _).imp fun hab =>
      (defaultKeyLe_iff _ _).mpr ((pixelsLe_iff _ _).mp hab)
